import Mathlib

/-!
Verification of the text-layout and viewport engine of `nodecode-terminal-kit`.

The embedded code comes from
`crates/nodecode-terminal-kit/src/layout/text.rs`,
`crates/nodecode-terminal-kit/src/components/list.rs` and
`crates/nodecode-terminal-kit/src/primitives/scrollbar.rs`.

Modelling conventions:
* a Rust `&str` is a `List Char`; byte offsets are sums of UTF-8 sizes
  (`Char.utf8Size`), matching Rust's byte indexing of UTF-8 strings;
* the external `unicode-width` oracle (`UnicodeWidthChar::width`) is a
  parameter `W : Char → Option Nat`;
* `usize` arithmetic uses `Nat` (`saturating_sub` is `Nat` subtraction);
  `u16`/`u32` products that can wrap are reduced modulo `2 ^ 16` / `2 ^ 32`.
-/

namespace TerminalKit

/-- Modulus of the Rust `u16` type. -/
def U16 : Nat := 2 ^ 16

/-- Modulus of the Rust `u32` type. -/
def U32 : Nat := 2 ^ 32

/-- Byte length of a character sequence (`str::len` on UTF-8 text). -/
def byteLen (cs : List Char) : Nat := (cs.map Char.utf8Size).sum

/-- Per-character column width `UnicodeWidthChar::width(ch).unwrap_or(0).max(1)`
actually used by `layout/text.rs` (both in `wrapped_row_ranges` and
`visual_column`). -/
def chWidth (W : Char → Option Nat) (c : Char) : Nat := max ((W c).getD 0) 1

/-- Break-candidate test `ch.is_whitespace() || ch == '@' || ch == '/'` of
`wrapped_row_ranges`. -/
def isBreakChar (c : Char) : Bool := c.isWhitespace || c == '@' || c == '/'

/-- The scan loop of `wrapped_row_ranges` (`layout/text.rs` lines 11–37),
with state `(remaining text, start, idx, width_cols, last_break)`.

In the source, the wrap branch pushes a row, sets `start = wrap_pos`,
resets `width_cols = 0` and re-enters the loop at the same `idx`; since
`width_cols = 0` that following iteration necessarily consumes the character
(the wrap guard requires `width_cols > 0`), so the two iterations are merged
into the single wrap step below. -/
def wrapGo (W : Char → Option Nat) (width : Nat) :
    List Char → Nat → Nat → Nat → Nat → List (Nat × Nat)
  | [], start, idx, _, _ => [(start, idx)]
  | c :: cs, start, idx, wcols, lastBreak =>
    if c = '\n' then
      (start, idx) :: wrapGo W width cs (idx + c.utf8Size) (idx + c.utf8Size) 0 (idx + c.utf8Size)
    else
      let w := chWidth W c
      let lb := if isBreakChar c then idx + c.utf8Size else lastBreak
      if 0 < wcols ∧ width < wcols + w then
        let wrapPos := if start < lastBreak then lastBreak else idx
        (start, wrapPos) :: wrapGo W width cs wrapPos (idx + c.utf8Size) w lb
      else
        wrapGo W width cs start (idx + c.utf8Size) (wcols + w) lb

/-- Function `wrapped_row_ranges(text, content_width)` from `layout/text.rs`:
wraps `text` to the column budget `content_width.max(1)` and returns the
byte ranges of the visual rows. -/
def wrapped_row_ranges (W : Char → Option Nat) (text : List Char) (content_width : Nat) :
    List (Nat × Nat) :=
  wrapGo W (max content_width 1) text 0 0 0 0

/-- Function `visual_column(slice)` from `layout/text.rs`: the display width
of a slice, summing `UnicodeWidthChar::width(c).unwrap_or(0).max(1)` per
char. -/
def visual_column (W : Char → Option Nat) (slice : List Char) : Nat :=
  (slice.map (chWidth W)).sum

/-- The scan loop of `find_visual_row`: `current_idx = 0`, then for each
`(idx, (start, _))` break when `cursor < start`, else `current_idx = idx`. -/
def findRowGo (cursor : Nat) : List (Nat × Nat) → Nat → Nat → Nat
  | [], _, cur => cur
  | (s, _) :: rest, idx, cur =>
    if cursor < s then cur else findRowGo cursor rest (idx + 1) idx

/-- Function `find_visual_row(ranges, cursor)` from `layout/text.rs`. -/
def find_visual_row (ranges : List (Nat × Nat)) (cursor : Nat) : Nat :=
  if ranges.isEmpty then 0
  else min (findRowGo cursor ranges 0 0) (ranges.length - 1)

/-- The inner loop of `cursor_to_byte_offset`: byte index of the `col`-th
character of `line` (the full byte length when `col ≥` the char count),
via `line.char_indices().enumerate()`. -/
def charIndexToByte : List Char → Nat → Nat
  | [], _ => 0
  | _ :: _, 0 => 0
  | c :: cs, n + 1 => c.utf8Size + charIndexToByte cs n

/-- The line walk of `cursor_to_byte_offset`: lines before `row` contribute
`line.len() + 1` bytes (content plus one newline separator). -/
def cursorToByteGo : List (List Char) → Nat → Nat → Nat
  | [], _, _ => 0
  | line :: rest, row, col =>
    if 0 < row then byteLen line + 1 + cursorToByteGo rest (row - 1) col
    else charIndexToByte line col

/-- Function `cursor_to_byte_offset(lines, (row, col))` from `layout/text.rs`. -/
def cursor_to_byte_offset (lines : List (List Char)) (cursor : Nat × Nat) : Nat :=
  cursorToByteGo lines cursor.1 cursor.2

/-- The inner loop of `byte_offset_to_cursor`: how many whole characters of
`line` fit in `remaining` bytes (stop when `consumed + len > remaining`). -/
def countCharsIn : List Char → Nat → Nat
  | [], _ => 0
  | c :: cs, remaining =>
    if remaining < c.utf8Size then 0
    else 1 + countCharsIn cs (remaining - c.utf8Size)

/-- The line walk of `byte_offset_to_cursor`; `orig` is kept only for the
fallback past the last line (`lines.len().saturating_sub(1)`, char count of
the last line). -/
def byteToCursorGo (orig : List (List Char)) :
    List (List Char) → Nat → Nat → Nat × Nat
  | [], _, _ => (orig.length - 1, ((orig.getLast?).map List.length).getD 0)
  | line :: rest, remaining, idx =>
    if remaining ≤ byteLen line then (idx, countCharsIn line remaining)
    else byteToCursorGo orig rest (remaining - (byteLen line + 1)) (idx + 1)

/-- Function `byte_offset_to_cursor(lines, offset)` from `layout/text.rs`. -/
def byte_offset_to_cursor (lines : List (List Char)) (offset : Nat) : Nat × Nat :=
  byteToCursorGo lines lines offset 0

/-- Function `calculate_viewport_offset_internal` from `components/list.rs`
(directional anchoring of the viewport to the selection). -/
def calculate_viewport_offset_internal
    (selected visible_height current_offset : Nat) : Nat :=
  let h := max visible_height 1
  if selected < current_offset then selected
  else if current_offset + h ≤ selected then selected - (h - 1)
  else current_offset

/-- The `selected` / `viewport_offset` fields of `ListState`
(`components/list.rs`). -/
structure ListState where
  selected : Nat
  viewport_offset : Nat

/-- Method `ListState::update_offset` from `components/list.rs`. -/
def ListState.update_offset (s : ListState) (visible_height : Nat) : ListState :=
  { s with viewport_offset :=
      calculate_viewport_offset_internal s.selected (max visible_height 1) s.viewport_offset }

/-- Function `select_next` from `components/list.rs`. -/
def select_next (selected len : Nat) : Nat :=
  if len = 0 then 0 else (selected + 1) % len

/-- Function `select_prev` from `components/list.rs`. -/
def select_prev (selected len : Nat) : Nat :=
  if len = 0 then 0
  else if selected = 0 then len - 1 else selected - 1

/-- Function `compute_thumb(track_h, visible_rows, total_rows, scroll)` from
`primitives/scrollbar.rs`; `track_h`, `visible_rows` are `u16`, `total_rows`,
`scroll` are `u32`; `as u16` casts reduce mod `2 ^ 16`, the `u32` product in
the thumb-top interpolation reduces mod `2 ^ 32`. -/
def compute_thumb (track_h visible_rows total_rows scroll : Nat) : Nat × Nat × Nat :=
  let max_scroll := total_rows - visible_rows
  let thumb_h :=
    if total_rows = 0 then 1
    else max (track_h * visible_rows % U32 / total_rows) 1 % U16
  let max_thumb_top := track_h - thumb_h
  let thumb_top :=
    if max_scroll = 0 then 0
    else min scroll max_scroll * max_thumb_top % U32 / max_scroll % U16
  (thumb_h, thumb_top, max_scroll)

/-- Function `map_thumb_to_scroll_u32(thumb_pos, max_thumb_top, max_scroll)`
from `primitives/scrollbar.rs`. -/
def map_thumb_to_scroll_u32 (thumb_pos max_thumb_top max_scroll : Nat) : Nat :=
  if max_thumb_top = 0 ∨ max_scroll = 0 then 0
  else thumb_pos * max_scroll % U32 / max_thumb_top

/-- A concrete model of the external `unicode-width` oracle, agreeing with
the crate on the characters used in concrete scenarios below: ASCII control
characters (and `'\n'`) have no width (`none`), the combining acute accent
U+0301 is zero-width, other characters used here are single-width. -/
def stdWidth (c : Char) : Option Nat :=
  if c.val = 0x301 then some 0
  else if c.val < 32 then none
  else some 1

/-- The spec's words for the visual column: the sum of the oracle's display
widths (0, 1 or 2) over the slice, a zero-width character contributing 0. -/
def oracle_width_sum (W : Char → Option Nat) (slice : List Char) : Nat :=
  (slice.map (fun c => (W c).getD 0)).sum

/-- Predicate `RowChain s e l`: `l` is a non-empty sequence of half-open
ranges starting at `s`, each range's start equal to the previous range's
end, each start at most its end, and final end `e` — i.e. an ordered
contiguous partition of `[s, e)`. -/
inductive RowChain : Nat → Nat → List (Nat × Nat) → Prop
  | single {s e : Nat} (h : s ≤ e) : RowChain s e [(s, e)]
  | cons {s m e : Nat} {rest : List (Nat × Nat)} (h : s ≤ m)
      (hr : RowChain m e rest) : RowChain s e ((s, m) :: rest)

/-- Length of the leading run of ranges whose start is `≤ cursor` — the
number of rows the `find_visual_row` scan walks before stopping. -/
def leadingStartsLe (cursor : Nat) : List (Nat × Nat) → Nat
  | [] => 0
  | (s, _) :: rest => if cursor < s then 0 else 1 + leadingStartsLe cursor rest

/-- The scroll → thumb-top → scroll round trip of the scrollbar: compute the
thumb from `compute_thumb`, then map the thumb top back to a scroll value via
`map_thumb_to_scroll_u32` with `max_thumb_top = track_h - thumb_h`. -/
def scrollRoundTrip (track_h visible_rows total_rows scroll : Nat) : Nat :=
  map_thumb_to_scroll_u32 (compute_thumb track_h visible_rows total_rows scroll).2.1
    (track_h - (compute_thumb track_h visible_rows total_rows scroll).1)
    (compute_thumb track_h visible_rows total_rows scroll).2.2

/-! Facts about chains of contiguous ranges. -/

theorem RowChain.ne_nil {s e : Nat} {l : List (Nat × Nat)} (hc : RowChain s e l) :
    l ≠ [] := by
  cases hc <;> simp

theorem RowChain.exists_cons {s e : Nat} {l : List (Nat × Nat)} (hc : RowChain s e l) :
    ∃ m rest, l = (s, m) :: rest := by
  cases hc with
  | single h => exact ⟨e, [], rfl⟩
  | cons h hr => exact ⟨_, _, rfl⟩

theorem RowChain.le {s e : Nat} {l : List (Nat × Nat)} (hc : RowChain s e l) : s ≤ e := by
  induction hc with
  | single h => exact h
  | cons h hr ih => exact le_trans h ih

theorem RowChain.head_fst {s e : Nat} {l : List (Nat × Nat)} (hc : RowChain s e l) :
    l.head?.map Prod.fst = some s := by
  obtain ⟨m, rest, rfl⟩ := hc.exists_cons
  rfl

theorem RowChain.last_snd {s e : Nat} {l : List (Nat × Nat)} (hc : RowChain s e l) :
    l.getLast?.map Prod.snd = some e := by
  induction hc with
  | single h => rfl
  | @cons s m e rest h hr ih =>
    obtain ⟨m2, rest2, rfl⟩ := hr.exists_cons
    rw [List.getLast?_cons_cons]
    exact ih

theorem RowChain.start_le {s e : Nat} {l : List (Nat × Nat)} (hc : RowChain s e l) :
    ∀ i, i < l.length → s ≤ (l.getD i (0, 0)).1 := by
  induction hc with
  | single h =>
    intro i hi
    have : i = 0 := by simpa using hi
    subst this
    simp
  | @cons s m e rest h hr ih =>
    intro i hi
    cases i with
    | zero => simp
    | succ j =>
      rw [List.getD_cons_succ]
      exact le_trans h (ih j (by simpa using hi))

theorem RowChain.fst_le_snd {s e : Nat} {l : List (Nat × Nat)} (hc : RowChain s e l) :
    ∀ i, i < l.length → (l.getD i (0, 0)).1 ≤ (l.getD i (0, 0)).2 := by
  induction hc with
  | single h =>
    intro i hi
    have : i = 0 := by simpa using hi
    subst this
    simpa using h
  | @cons s m e rest h hr ih =>
    intro i hi
    cases i with
    | zero => simpa using h
    | succ j =>
      rw [List.getD_cons_succ]
      exact ih j (by simpa using hi)

theorem RowChain.snd_le {s e : Nat} {l : List (Nat × Nat)} (hc : RowChain s e l) :
    ∀ i, i < l.length → (l.getD i (0, 0)).2 ≤ e := by
  induction hc with
  | single h =>
    intro i hi
    have : i = 0 := by simpa using hi
    subst this
    simp
  | @cons s m e rest h hr ih =>
    intro i hi
    cases i with
    | zero => simpa using hr.le
    | succ j =>
      rw [List.getD_cons_succ]
      exact ih j (by simpa using hi)

theorem RowChain.adjacent {s e : Nat} {l : List (Nat × Nat)} (hc : RowChain s e l) :
    ∀ i, i + 1 < l.length →
      (l.getD i (0, 0)).2 = (l.getD (i + 1) (0, 0)).1 := by
  induction hc with
  | single h =>
    intro i hi
    simp at hi
  | @cons s m e rest h hr ih =>
    intro i hi
    cases i with
    | zero =>
      obtain ⟨m2, rest2, rfl⟩ := hr.exists_cons
      simp
    | succ j =>
      rw [List.getD_cons_succ, List.getD_cons_succ]
      exact ih j (by simpa using hi)

theorem RowChain.sep {s e : Nat} {l : List (Nat × Nat)} (hc : RowChain s e l) :
    ∀ i j, i < j → j < l.length →
      (l.getD i (0, 0)).2 ≤ (l.getD j (0, 0)).1 := by
  induction hc with
  | single h =>
    intro i j hij hj
    simp at hj
    omega
  | @cons s m e rest h hr ih =>
    intro i j hij hj
    cases j with
    | zero => omega
    | succ j2 =>
      cases i with
      | zero =>
        rw [List.getD_cons_zero, List.getD_cons_succ]
        exact hr.start_le j2 (by simpa using hj)
      | succ i2 =>
        rw [List.getD_cons_succ, List.getD_cons_succ]
        exact ih i2 j2 (by omega) (by simpa using hj)

theorem RowChain.cover {s e : Nat} {l : List (Nat × Nat)} (hc : RowChain s e l) :
    ∀ o, s ≤ o → o < e →
      ∃ i, i < l.length ∧ (l.getD i (0, 0)).1 ≤ o ∧ o < (l.getD i (0, 0)).2 := by
  induction hc with
  | single h =>
    intro o h1 h2
    exact ⟨0, by simp, by simpa using h1, by simpa using h2⟩
  | @cons s m e rest h hr ih =>
    intro o h1 h2
    by_cases hm : o < m
    · exact ⟨0, by simp, by simpa using h1, by simpa using hm⟩
    · obtain ⟨i, hi, hle, hlt⟩ := ih o (by omega) h2
      refine ⟨i + 1, by simpa using hi, ?_, ?_⟩ <;>
        rw [List.getD_cons_succ] <;> assumption

/-! Facts about the wrap loop. -/

theorem byteLen_nil : byteLen [] = 0 := rfl

theorem byteLen_cons (c : Char) (cs : List Char) :
    byteLen (c :: cs) = c.utf8Size + byteLen cs := by
  simp [byteLen]

/-- Whatever the text, the wrap loop emits at least one row. -/
theorem wrapGo_ne_nil (W : Char → Option Nat) (width : Nat) :
    ∀ (cs : List Char) (start idx wcols lastBreak : Nat),
      wrapGo W width cs start idx wcols lastBreak ≠ [] := by
  intro cs
  induction cs with
  | nil => intro start idx wcols lastBreak; simp [wrapGo]
  | cons c cs ih =>
    intro start idx wcols lastBreak
    by_cases hc : c = '\n'
    · rw [wrapGo, if_pos hc]; simp
    · rw [wrapGo, if_neg hc]
      simp only []
      by_cases hw : 0 < wcols ∧ width < wcols + chWidth W c
      · rw [if_pos hw]; simp
      · rw [if_neg hw]; exact ih _ _ _ _

/-- On newline-free text the wrap loop emits a contiguous chain of ranges
from `start` to the end of the text. -/
theorem wrapGo_chain (W : Char → Option Nat) (width : Nat) :
    ∀ (cs : List Char) (start idx wcols lastBreak : Nat),
      (∀ c ∈ cs, c ≠ '\n') → start ≤ idx → lastBreak ≤ idx →
      RowChain start (idx + byteLen cs) (wrapGo W width cs start idx wcols lastBreak) := by
  intro cs
  induction cs with
  | nil =>
    intro start idx wcols lastBreak hnl hsi hlb
    simpa [wrapGo, byteLen_nil] using RowChain.single hsi
  | cons c cs ih =>
    intro start idx wcols lastBreak hnl hsi hlb
    have hc : c ≠ '\n' := hnl c (List.mem_cons_self c cs)
    have hcs : ∀ x ∈ cs, x ≠ '\n' := fun x hx => hnl x (List.mem_cons_of_mem c hx)
    have hend : idx + byteLen (c :: cs) = (idx + c.utf8Size) + byteLen cs := by
      rw [byteLen_cons]; omega
    rw [wrapGo, if_neg hc]
    simp only []
    by_cases hwrap : 0 < wcols ∧ width < wcols + chWidth W c
    · rw [if_pos hwrap]
      have hlb' : (if isBreakChar c then idx + c.utf8Size else lastBreak) ≤ idx + c.utf8Size := by
        split_ifs <;> omega
      have hwp_le : (if start < lastBreak then lastBreak else idx) ≤ idx := by
        split_ifs <;> omega
      have hswp : start ≤ (if start < lastBreak then lastBreak else idx) := by
        split_ifs <;> omega
      rw [hend]
      exact RowChain.cons hswp
        (ih _ _ _ _ hcs (le_trans hwp_le (Nat.le_add_right _ _)) hlb')
    · rw [if_neg hwrap]
      have hlb' : (if isBreakChar c then idx + c.utf8Size else lastBreak) ≤ idx + c.utf8Size := by
        split_ifs <;> omega
      rw [hend]
      exact ih _ _ _ _ hcs (le_trans hsi (Nat.le_add_right _ _)) hlb'

/-- C1 counterexample: with text `"a\nb"` the ranges are `[(0,1),(2,3)]`;
the newline byte at offset 1 is excluded, so the ranges are not contiguous
and do not cover `[0, 3)`. -/
theorem wrap_partition_counterexample :
    wrapped_row_ranges stdWidth ['a', '\n', 'b'] 5 = [(0, 1), (2, 3)] ∧
    ((wrapped_row_ranges stdWidth ['a', '\n', 'b'] 5).getD 0 (0, 0)).2 ≠
      ((wrapped_row_ranges stdWidth ['a', '\n', 'b'] 5).getD 1 (0, 0)).1 := by decide

/-- C1 amended: for newline-free text and any width `≥ 1` the wrap ranges are
a partition of `[0, byteLen text)` — non-empty, first start `0`, last end
`byteLen text`, adjacent ranges contiguous, each start `≤` its end, earlier
ranges entirely before later ones, every byte offset covered by exactly one
range — the row list is never empty for any text whatsoever, and empty text
yields exactly `[(0, 0)]`.  (Texts containing `'\n'` violate contiguity: each
newline byte is excluded from all rows, see the counterexample.) -/
theorem wrap_partition (W : Char → Option Nat) (text : List Char) (width : Nat)
    (hw : 1 ≤ width) (hnl : ∀ c ∈ text, c ≠ '\n') :
    ∀ R, R = wrapped_row_ranges W text width →
      R ≠ [] ∧
      (∀ t : List Char, wrapped_row_ranges W t width ≠ []) ∧
      R.head?.map Prod.fst = some 0 ∧
      R.getLast?.map Prod.snd = some (byteLen text) ∧
      (∀ i, i + 1 < R.length → (R.getD i (0, 0)).2 = (R.getD (i + 1) (0, 0)).1) ∧
      (∀ i, i < R.length → (R.getD i (0, 0)).1 ≤ (R.getD i (0, 0)).2) ∧
      (∀ i j, i < j → j < R.length → (R.getD i (0, 0)).2 ≤ (R.getD j (0, 0)).1) ∧
      (∀ o, o < byteLen text →
        ∃ i, (i < R.length ∧ (R.getD i (0, 0)).1 ≤ o ∧ o < (R.getD i (0, 0)).2) ∧
          ∀ j, j < R.length → (R.getD j (0, 0)).1 ≤ o → o < (R.getD j (0, 0)).2 → j = i) ∧
      (text = [] → R = [(0, 0)]) := by
  intro R hR
  have hchain : RowChain 0 (byteLen text) R := by
    rw [hR]
    simpa using wrapGo_chain W (max width 1) text 0 0 0 0 hnl (le_refl 0) (le_refl 0)
  refine ⟨hchain.ne_nil, fun t => wrapGo_ne_nil W (max width 1) t 0 0 0 0,
    hchain.head_fst, hchain.last_snd, hchain.adjacent, hchain.fst_le_snd,
    hchain.sep, ?_, ?_⟩
  · intro o ho
    obtain ⟨i, hi, hle, hlt⟩ := hchain.cover o (Nat.zero_le o) ho
    refine ⟨i, ⟨hi, hle, hlt⟩, ?_⟩
    intro j hj hjle hjlt
    rcases lt_trichotomy j i with h | h | h
    · exact absurd (lt_of_le_of_lt hle hjlt) (not_lt.mpr (hchain.sep j i h hi))
    · exact h
    · exact absurd (lt_of_le_of_lt hjle hlt) (not_lt.mpr (hchain.sep i j h hj))
  · intro ht
    subst ht
    simpa using hR

/-- C1 witness: the partition properties at text `"ab cd"`, width 3. -/
theorem wrap_partition_witness :
    (∀ c ∈ ['a', 'b', ' ', 'c', 'd'], c ≠ '\n') ∧
    (wrapped_row_ranges stdWidth ['a', 'b', ' ', 'c', 'd'] 3 ≠ [] ∧
      (∀ t : List Char, wrapped_row_ranges stdWidth t 3 ≠ []) ∧
      (wrapped_row_ranges stdWidth ['a', 'b', ' ', 'c', 'd'] 3).head?.map Prod.fst = some 0 ∧
      (wrapped_row_ranges stdWidth ['a', 'b', ' ', 'c', 'd'] 3).getLast?.map Prod.snd =
        some (byteLen ['a', 'b', ' ', 'c', 'd']) ∧
      (∀ i, i + 1 < (wrapped_row_ranges stdWidth ['a', 'b', ' ', 'c', 'd'] 3).length →
        ((wrapped_row_ranges stdWidth ['a', 'b', ' ', 'c', 'd'] 3).getD i (0, 0)).2 =
          ((wrapped_row_ranges stdWidth ['a', 'b', ' ', 'c', 'd'] 3).getD (i + 1) (0, 0)).1) ∧
      (∀ i, i < (wrapped_row_ranges stdWidth ['a', 'b', ' ', 'c', 'd'] 3).length →
        ((wrapped_row_ranges stdWidth ['a', 'b', ' ', 'c', 'd'] 3).getD i (0, 0)).1 ≤
          ((wrapped_row_ranges stdWidth ['a', 'b', ' ', 'c', 'd'] 3).getD i (0, 0)).2) ∧
      (∀ i j, i < j → j < (wrapped_row_ranges stdWidth ['a', 'b', ' ', 'c', 'd'] 3).length →
        ((wrapped_row_ranges stdWidth ['a', 'b', ' ', 'c', 'd'] 3).getD i (0, 0)).2 ≤
          ((wrapped_row_ranges stdWidth ['a', 'b', ' ', 'c', 'd'] 3).getD j (0, 0)).1) ∧
      (∀ o, o < byteLen ['a', 'b', ' ', 'c', 'd'] →
        ∃ i, (i < (wrapped_row_ranges stdWidth ['a', 'b', ' ', 'c', 'd'] 3).length ∧
            ((wrapped_row_ranges stdWidth ['a', 'b', ' ', 'c', 'd'] 3).getD i (0, 0)).1 ≤ o ∧
            o < ((wrapped_row_ranges stdWidth ['a', 'b', ' ', 'c', 'd'] 3).getD i (0, 0)).2) ∧
          ∀ j, j < (wrapped_row_ranges stdWidth ['a', 'b', ' ', 'c', 'd'] 3).length →
            ((wrapped_row_ranges stdWidth ['a', 'b', ' ', 'c', 'd'] 3).getD j (0, 0)).1 ≤ o →
            o < ((wrapped_row_ranges stdWidth ['a', 'b', ' ', 'c', 'd'] 3).getD j (0, 0)).2 →
            j = i) ∧
      (['a', 'b', ' ', 'c', 'd'] = ([] : List Char) →
        wrapped_row_ranges stdWidth ['a', 'b', ' ', 'c', 'd'] 3 = [(0, 0)])) :=
  ⟨by decide,
    wrap_partition stdWidth ['a', 'b', ' ', 'c', 'd'] 3 (by decide) (by decide) _ rfl⟩

/-! Behaviour of `find_visual_row` on a chain. -/

/-- The `find_visual_row` scan on a list whose first start is `≤ cursor`
returns the index (shifted by the enumeration base `i`) of the last range of
the leading run of starts `≤ cursor`. -/
theorem findRowGo_cons_eq (cursor : Nat) :
    ∀ (rest : List (Nat × Nat)) (s p i cur : Nat), s ≤ cursor →
      findRowGo cursor ((s, p) :: rest) i cur =
        i + leadingStartsLe cursor ((s, p) :: rest) - 1 := by
  intro rest
  induction rest with
  | nil =>
    intro s p i cur hs
    rw [findRowGo, if_neg (Nat.not_lt.mpr hs), findRowGo]
    simp only [leadingStartsLe, if_neg (Nat.not_lt.mpr hs)]
    omega
  | cons x rest2 ih =>
    intro s p i cur hs
    obtain ⟨s2, p2⟩ := x
    rw [findRowGo, if_neg (Nat.not_lt.mpr hs)]
    by_cases h2 : cursor < s2
    · rw [findRowGo, if_pos h2]
      simp only [leadingStartsLe, if_neg (Nat.not_lt.mpr hs), if_pos h2]
      omega
    · rw [ih s2 p2 (i + 1) i (Nat.not_lt.mp h2)]
      simp only [leadingStartsLe, if_neg (Nat.not_lt.mpr hs), if_neg h2]
      omega

/-- On a chain, a cursor strictly inside `[s, e)` stops the scan at its
(unique) containing range. -/
theorem RowChain.leading_lt {s e : Nat} {l : List (Nat × Nat)} (hc : RowChain s e l) :
    ∀ o, s ≤ o → o < e →
      ∃ k, leadingStartsLe o l = k + 1 ∧ k < l.length ∧
        (l.getD k (0, 0)).1 ≤ o ∧ o < (l.getD k (0, 0)).2 := by
  induction hc with
  | single h =>
    intro o hs ho
    refine ⟨0, ?_, by simp, by simpa using hs, by simpa using ho⟩
    simp [leadingStartsLe, Nat.not_lt.mpr hs]
  | @cons s m e rest h hr ih =>
    intro o hs ho
    by_cases hm : o < m
    · obtain ⟨m2, rest2, hrest⟩ := hr.exists_cons
      refine ⟨0, ?_, by simp, by simpa using hs, by simpa using hm⟩
      rw [hrest]
      simp [leadingStartsLe, Nat.not_lt.mpr hs, hm]
    · obtain ⟨k, hk, hklen, hkle, hklt⟩ := ih o (Nat.not_lt.mp hm) ho
      refine ⟨k + 1, ?_, by simpa using hklen, ?_, ?_⟩
      · simp only [leadingStartsLe, if_neg (Nat.not_lt.mpr hs), hk]
        omega
      · rw [List.getD_cons_succ]; exact hkle
      · rw [List.getD_cons_succ]; exact hklt

/-- When every start is `≤ cursor` the scan walks the whole list. -/
theorem leadingStartsLe_of_all (o : Nat) :
    ∀ l : List (Nat × Nat), (∀ i, i < l.length → (l.getD i (0, 0)).1 ≤ o) →
      leadingStartsLe o l = l.length := by
  intro l
  induction l with
  | nil => intro h; rfl
  | cons x rest ih =>
    intro h
    obtain ⟨s, p⟩ := x
    have h0 : s ≤ o := by simpa using h 0 (by simp)
    simp only [leadingStartsLe, if_neg (Nat.not_lt.mpr h0), List.length_cons]
    rw [ih (fun i hi => by simpa using h (i + 1) (by simpa using hi))]
    omega

/-- C3 amended: for newline-free text, width `≥ 1`, and any byte offset
`o ≤ byteLen text`, `find_visual_row` returns the unique row index `i` with
`start_i ≤ o` and either `o < end_i`, or `i` is the last row and `o` is the
text's byte length; boundary offsets thus belong to the later row except at
the very end of the text.  (With newlines the claimed unique index need not
exist: a cursor on a newline byte lies in no row, see the counterexample.) -/
theorem find_visual_row_containment (W : Char → Option Nat) (text : List Char)
    (width o : Nat) (hw : 1 ≤ width) (hnl : ∀ c ∈ text, c ≠ '\n')
    (ho : o ≤ byteLen text) :
    ∀ R r, R = wrapped_row_ranges W text width → r = find_visual_row R o →
      r < R.length ∧
      (R.getD r (0, 0)).1 ≤ o ∧
      (o < (R.getD r (0, 0)).2 ∨ (r = R.length - 1 ∧ o = byteLen text)) ∧
      (∀ j, j < R.length → (R.getD j (0, 0)).1 ≤ o →
        (o < (R.getD j (0, 0)).2 ∨ (j = R.length - 1 ∧ o = byteLen text)) →
        j = r) := by
  intro R r hR hr
  have hchain : RowChain 0 (byteLen text) R := by
    rw [hR]
    simpa using wrapGo_chain W (max width 1) text 0 0 0 0 hnl (le_refl 0) (le_refl 0)
  obtain ⟨m, rest, hcons⟩ := hchain.exists_cons
  have hne : R.isEmpty = false := by rw [hcons]; rfl
  have hgo : findRowGo o R 0 0 = 0 + leadingStartsLe o R - 1 := by
    rw [hcons]
    exact findRowGo_cons_eq o rest 0 m 0 0 (Nat.zero_le o)
  have hlen_pos : 0 < R.length := by rw [hcons]; simp
  have hfv : r = min (leadingStartsLe o R - 1) (R.length - 1) := by
    rw [hr, find_visual_row, hne]
    simp only [Bool.false_eq_true, if_false]
    rw [hgo]
    omega
  rcases eq_or_lt_of_le ho with heq | hlt
  · have hall : ∀ i, i < R.length → (R.getD i (0, 0)).1 ≤ o := by
      intro i hi
      exact le_trans (hchain.fst_le_snd i hi)
        (le_trans (hchain.snd_le i hi) (le_of_eq heq.symm))
    have hlead : leadingStartsLe o R = R.length := leadingStartsLe_of_all o R hall
    have hrk : r = R.length - 1 := by rw [hfv, hlead]; omega
    refine ⟨by omega, hall _ (by omega), Or.inr ⟨hrk, heq⟩, ?_⟩
    intro j hj hjle hjdisj
    rcases hjdisj with hjlt | ⟨hjlast, _⟩
    · exact absurd hjlt
        (not_lt.mpr (le_trans (hchain.snd_le j hj) (le_of_eq heq.symm)))
    · omega
  · obtain ⟨k, hk, hklen, hkle, hklt⟩ := hchain.leading_lt o (Nat.zero_le o) hlt
    have hrk : r = k := by rw [hfv, hk]; omega
    subst hrk
    refine ⟨hklen, hkle, Or.inl hklt, ?_⟩
    intro j hj hjle hjdisj
    rcases hjdisj with hjlt | ⟨_, hoeq⟩
    · rcases lt_trichotomy j r with h | h | h
      · exact absurd (lt_of_le_of_lt hkle hjlt) (not_lt.mpr (hchain.sep j r h hklen))
      · exact h
      · exact absurd (lt_of_le_of_lt hjle hklt) (not_lt.mpr (hchain.sep r j h hj))
    · omega

/-- C3 counterexample: for text `"a\nb"`, byte offset 1 (the newline),
`find_visual_row` returns row 0, but row 0 = `(0,1)` does not contain offset
1 and is not the last row — no row satisfies the claimed characterisation. -/
theorem find_visual_row_counterexample :
    find_visual_row (wrapped_row_ranges stdWidth ['a', '\n', 'b'] 5) 1 = 0 ∧
    ¬ (1 < ((wrapped_row_ranges stdWidth ['a', '\n', 'b'] 5).getD 0 (0, 0)).2 ∨
        (0 = (wrapped_row_ranges stdWidth ['a', '\n', 'b'] 5).length - 1 ∧
          1 = byteLen ['a', '\n', 'b'])) ∧
    ¬ (1 < ((wrapped_row_ranges stdWidth ['a', '\n', 'b'] 5).getD 1 (0, 0)).2 ∧
        ((wrapped_row_ranges stdWidth ['a', '\n', 'b'] 5).getD 1 (0, 0)).1 ≤ 1) := by
  decide

/-- C3 witness: containment at text `"ab cd"`, width 3, offset 3. -/
theorem find_visual_row_containment_witness :
    find_visual_row (wrapped_row_ranges stdWidth ['a', 'b', ' ', 'c', 'd'] 3) 3 <
      (wrapped_row_ranges stdWidth ['a', 'b', ' ', 'c', 'd'] 3).length ∧
    ((wrapped_row_ranges stdWidth ['a', 'b', ' ', 'c', 'd'] 3).getD
        (find_visual_row (wrapped_row_ranges stdWidth ['a', 'b', ' ', 'c', 'd'] 3) 3)
        (0, 0)).1 ≤ 3 ∧
    (3 < ((wrapped_row_ranges stdWidth ['a', 'b', ' ', 'c', 'd'] 3).getD
        (find_visual_row (wrapped_row_ranges stdWidth ['a', 'b', ' ', 'c', 'd'] 3) 3)
        (0, 0)).2 ∨
      (find_visual_row (wrapped_row_ranges stdWidth ['a', 'b', ' ', 'c', 'd'] 3) 3 =
          (wrapped_row_ranges stdWidth ['a', 'b', ' ', 'c', 'd'] 3).length - 1 ∧
        3 = byteLen ['a', 'b', ' ', 'c', 'd'])) ∧
    (∀ j, j < (wrapped_row_ranges stdWidth ['a', 'b', ' ', 'c', 'd'] 3).length →
      ((wrapped_row_ranges stdWidth ['a', 'b', ' ', 'c', 'd'] 3).getD j (0, 0)).1 ≤ 3 →
      (3 < ((wrapped_row_ranges stdWidth ['a', 'b', ' ', 'c', 'd'] 3).getD j (0, 0)).2 ∨
        (j = (wrapped_row_ranges stdWidth ['a', 'b', ' ', 'c', 'd'] 3).length - 1 ∧
          3 = byteLen ['a', 'b', ' ', 'c', 'd'])) →
      j = find_visual_row (wrapped_row_ranges stdWidth ['a', 'b', ' ', 'c', 'd'] 3) 3) :=
  find_visual_row_containment stdWidth ['a', 'b', ' ', 'c', 'd'] 3 3
    (by decide) (by decide) (by decide) _ _ rfl rfl

/-- C5: for every selected index, visible height `> 0` and current offset,
the offset computed by the viewport update keeps the selection inside the
window: `offset ≤ selected < offset + visible_height`; `ListState.update_offset`
stores exactly that offset, so the invariant holds after any update call. -/
theorem viewport_containment (sel vh cur : Nat) (hvh : 0 < vh) :
    (calculate_viewport_offset_internal sel vh cur ≤ sel ∧
      sel < calculate_viewport_offset_internal sel vh cur + vh) ∧
    ((ListState.mk sel cur).update_offset vh).viewport_offset =
      calculate_viewport_offset_internal sel vh cur := by
  simp only [calculate_viewport_offset_internal, ListState.update_offset]
  split_ifs <;> simp_all <;> omega

/-- C5 witness: containment at `selected = 12`, `visible_height = 5`,
`current_offset = 0`. -/
theorem viewport_containment_witness :
    (calculate_viewport_offset_internal 12 5 0 ≤ 12 ∧
      12 < calculate_viewport_offset_internal 12 5 0 + 5) ∧
    ((ListState.mk 12 0).update_offset 5).viewport_offset =
      calculate_viewport_offset_internal 12 5 0 :=
  viewport_containment 12 5 0 (by decide)

/-- C6: directional anchoring: with `h = visible_height.max(1)`, the updated
offset is `selected` when the selection lies above the window, is
`selected - (h - 1)` when it lies at/below the window's end, and is the
current offset when already visible; concretely
`calculate_viewport_offset_internal 12 5 0 = 8`. -/
theorem viewport_directional_anchoring (sel vh cur : Nat) :
    (sel < cur → calculate_viewport_offset_internal sel vh cur = sel) ∧
    (cur + max vh 1 ≤ sel →
      calculate_viewport_offset_internal sel vh cur = sel - (max vh 1 - 1)) ∧
    (cur ≤ sel → sel < cur + max vh 1 →
      calculate_viewport_offset_internal sel vh cur = cur) ∧
    calculate_viewport_offset_internal 12 5 0 = 8 := by
  refine ⟨fun h1 => ?_, fun h2 => ?_, fun h3 h4 => ?_, by decide⟩ <;>
    simp only [calculate_viewport_offset_internal] <;>
    split_ifs <;> omega

/-- C6 witness: the three anchoring branches at concrete inputs
(above: `sel 1, cur 3`; below: `sel 12, cur 0`; visible: `sel 4, cur 3`),
all with `visible_height = 5`. -/
theorem viewport_directional_anchoring_witness :
    calculate_viewport_offset_internal 1 5 3 = 1 ∧
    calculate_viewport_offset_internal 12 5 0 = 12 - (max 5 1 - 1) ∧
    calculate_viewport_offset_internal 4 5 3 = 3 :=
  ⟨(viewport_directional_anchoring 1 5 3).1 (by decide),
   (viewport_directional_anchoring 12 5 0).2.1 (by decide),
   (viewport_directional_anchoring 4 5 3).2.2.1 (by decide) (by decide)⟩

/-- C10: `select_next` advances cyclically (`(selected + 1) % len`), so the
last item wraps to `0`; `select_prev 0 len = len - 1`, so the first item
wraps back to the last; both return `0` on an empty list. -/
theorem selection_wraparound (sel len : Nat) :
    (0 < len → select_next sel len = (sel + 1) % len) ∧
    (0 < len → select_prev 0 len = len - 1) ∧
    select_next sel 0 = 0 ∧ select_prev sel 0 = 0 := by
  refine ⟨fun h => ?_, fun h => ?_, ?_, ?_⟩ <;>
    simp only [select_next, select_prev] <;> split_ifs <;> omega

/-- C10 witness: wrap-around at `selected = 4`, `len = 5`. -/
theorem selection_wraparound_witness :
    select_next 4 5 = (4 + 1) % 5 ∧ select_prev 0 5 = 5 - 1 :=
  ⟨(selection_wraparound 4 5).1 (by decide), (selection_wraparound 4 5).2.1 (by decide)⟩

/-- C2 counterexample: `wrapped_row_ranges "hello world" 5` is not
`[(0,5),(6,11)]`: the code hard-breaks before the space (no break candidate
exists yet), so the space starts its own row `(5,6)`. -/
theorem wrap_hello_world_counterexample :
    wrapped_row_ranges stdWidth ['h','e','l','l','o',' ','w','o','r','l','d'] 5 ≠
      [(0, 5), (6, 11)] := by decide

/-- C2 amended: `wrapped_row_ranges "hello world" 5` returns the three rows
`[(0,5),(5,6),(6,11)]` — a hard break before the space, a soft break after
it (the space is recorded as a break candidate once consumed), and the final
row holding `"world"`. -/
theorem wrap_hello_world :
    wrapped_row_ranges stdWidth ['h','e','l','l','o',' ','w','o','r','l','d'] 5 =
      [(0, 5), (5, 6), (6, 11)] := by decide

/-- C9 counterexample: the combining acute accent U+0301 has oracle width 0,
yet `visual_column` counts it as 1 column (`unwrap_or(0).max(1)`), so the
visual column is not the sum of oracle widths. -/
theorem visual_column_zero_width_counterexample :
    visual_column stdWidth [Char.ofNat 0x301] = 1 ∧
    oracle_width_sum stdWidth [Char.ofNat 0x301] = 0 := by decide

/-- C9 amended: `visual_column` sums the oracle widths floored at one column
per character (`max (width) 1`), and therefore agrees with the plain oracle
sum exactly when every character of the slice has oracle width `≥ 1`. -/
theorem visual_column_sums_floored_widths (W : Char → Option Nat) (slice : List Char) :
    visual_column W slice = (slice.map (fun c => max ((W c).getD 0) 1)).sum ∧
    ((∀ c ∈ slice, 1 ≤ (W c).getD 0) → visual_column W slice = oracle_width_sum W slice) := by
  constructor
  · rfl
  · intro h
    induction slice with
    | nil => rfl
    | cons c cs ih =>
      have hc : 1 ≤ (W c).getD 0 := h c (List.mem_cons_self c cs)
      have hcs : ∀ x ∈ cs, 1 ≤ (W x).getD 0 := fun x hx => h x (List.mem_cons_of_mem c hx)
      simp only [visual_column, oracle_width_sum, List.map_cons, List.sum_cons] at *
      have : chWidth W c = (W c).getD 0 := by
        simp only [chWidth]; omega
      rw [this, ih hcs]

/-- C9 amended witness: agreement with the oracle sum on `"ab"`. -/
theorem visual_column_sums_floored_widths_witness :
    visual_column stdWidth ['a', 'b'] = oracle_width_sum stdWidth ['a', 'b'] :=
  (visual_column_sums_floored_widths stdWidth ['a', 'b']).2 (by decide)

/-! Facts about the cursor round trip. -/

theorem charIndexToByte_le (line : List Char) :
    ∀ col, charIndexToByte line col ≤ byteLen line := by
  induction line with
  | nil => intro col; cases col <;> simp [charIndexToByte, byteLen_nil]
  | cons c cs ih =>
    intro col
    cases col with
    | zero => simp [charIndexToByte]
    | succ n =>
      rw [charIndexToByte, byteLen_cons]
      exact Nat.add_le_add_left (ih n) _

theorem countCharsIn_charIndexToByte :
    ∀ (line : List Char) (col : Nat), col ≤ line.length →
      countCharsIn line (charIndexToByte line col) = col := by
  intro line
  induction line with
  | nil =>
    intro col hcol
    have : col = 0 := by simpa using hcol
    subst this
    rfl
  | cons c cs ih =>
    intro col hcol
    cases col with
    | zero =>
      rw [charIndexToByte, countCharsIn, if_pos c.utf8Size_pos]
    | succ n =>
      rw [charIndexToByte, countCharsIn,
        if_neg (by omega), Nat.add_sub_cancel_left]
      rw [ih n (by simpa using hcol)]
      omega

/-- Walking `byte_offset_to_cursor` over the offset produced by
`cursor_to_byte_offset` recovers the cursor, for any enumeration base. -/
theorem byteToCursorGo_roundtrip (orig : List (List Char)) :
    ∀ (lines : List (List Char)) (row col idx : Nat),
      row < lines.length → col ≤ (lines.getD row []).length →
      byteToCursorGo orig lines (cursorToByteGo lines row col) idx = (idx + row, col) := by
  intro lines
  induction lines with
  | nil =>
    intro row col idx hrow hcol
    simp at hrow
  | cons line rest ih =>
    intro row col idx hrow hcol
    cases row with
    | zero =>
      rw [cursorToByteGo, if_neg (by omega)]
      rw [byteToCursorGo, if_pos (charIndexToByte_le line col)]
      rw [countCharsIn_charIndexToByte line col (by simpa using hcol)]
      simp
    | succ rw0 =>
      rw [cursorToByteGo, if_pos (by omega)]
      have hx : ∀ X : Nat, ¬ (byteLen line + 1 + X ≤ byteLen line) := by intro X; omega
      rw [byteToCursorGo, if_neg (hx _)]
      have hy : byteLen line + 1 + cursorToByteGo rest (rw0 + 1 - 1) col -
          (byteLen line + 1) = cursorToByteGo rest rw0 col := by
        simp only [Nat.add_sub_cancel]
        omega
      rw [hy]
      rw [ih rw0 col (idx + 1) (by simpa using hrow) (by simpa using hcol)]
      refine Prod.ext ?_ rfl
      simp
      omega

/-- C4: for every non-empty line list and every cursor `(row, col)` with
`row` in range and `col` at most the character count of that line,
`byte_offset_to_cursor` inverts `cursor_to_byte_offset`. -/
theorem cursor_roundtrip (lines : List (List Char)) (row col : Nat)
    (hne : lines ≠ []) (hrow : row < lines.length)
    (hcol : col ≤ (lines.getD row []).length) :
    byte_offset_to_cursor lines (cursor_to_byte_offset lines (row, col)) = (row, col) := by
  have h := byteToCursorGo_roundtrip lines lines row col 0 hrow hcol
  simpa [byte_offset_to_cursor, cursor_to_byte_offset] using h

/-- C4 witness: round trip at lines `["aé", "b"]` (a two-byte character on
the first line), cursor `(0, 2)` — past the multi-byte character. -/
theorem cursor_roundtrip_witness :
    byte_offset_to_cursor [['a', 'é'], ['b']]
      (cursor_to_byte_offset [['a', 'é'], ['b']] (0, 2)) = (0, 2) :=
  cursor_roundtrip [['a', 'é'], ['b']] 0 2 (by decide) (by decide) (by decide)

/-- C7: for `track_height ≥ 1`, `0 < visible ≤ total` (within the `u16`/`u32`
input ranges) and `scroll ≤ max_scroll`, the thumb satisfies
`1 ≤ thumb_height ≤ track_height`, `thumb_top + thumb_height ≤ track_height`,
and `max_scroll = total - visible`; concretely
`compute_thumb 10 5 20 5 = (2, 2, 15)`. -/
theorem scrollbar_thumb_bounds (track vis total scroll : Nat)
    (htr : 1 ≤ track) (hv : 0 < vis) (hvt : vis ≤ total) (hs : scroll ≤ total - vis)
    (htr16 : track < U16) (hv16 : vis < U16) (htot32 : total < U32) :
    1 ≤ (compute_thumb track vis total scroll).1 ∧
    (compute_thumb track vis total scroll).1 ≤ track ∧
    (compute_thumb track vis total scroll).2.1 + (compute_thumb track vis total scroll).1
      ≤ track ∧
    (compute_thumb track vis total scroll).2.2 = total - vis ∧
    compute_thumb 10 5 20 5 = (2, 2, 15) := by
  have h0 : 0 < total := lt_of_lt_of_le hv hvt
  have h0' : ¬ total = 0 := by omega
  have hprod : track * vis < U32 := by
    calc track * vis < U16 * U16 :=
          mul_lt_mul'' htr16 hv16 (Nat.zero_le _) (Nat.zero_le _)
      _ = U32 := by norm_num [U16, U32]
  have hmod : track * vis % U32 = track * vis := Nat.mod_eq_of_lt hprod
  have hq : track * vis / total ≤ track := by
    have h1 : track * vis ≤ track * total := Nat.mul_le_mul_left track hvt
    have h2 : track * vis / total ≤ track * total / total := Nat.div_le_div_right h1
    rwa [Nat.mul_div_cancel _ h0] at h2
  have hth_le : max (track * vis / total) 1 ≤ track := max_le hq htr
  have hth16 : max (track * vis / total) 1 % U16 = max (track * vis / total) 1 :=
    Nat.mod_eq_of_lt (lt_of_le_of_lt hth_le htr16)
  simp only [compute_thumb, h0', if_false, hmod, hth16]
  by_cases hms : total - vis = 0
  · simp only [hms, if_pos rfl]
    refine ⟨le_max_right _ 1, hth_le, ?_, trivial, by decide⟩
    simpa using hth_le
  · have hmspos : 0 < total - vis := Nat.pos_of_ne_zero hms
    simp only [hms, if_false]
    set ms := total - vis with hmsdef
    set th := max (track * vis / total) 1 with hthdef
    set m := track - th with hmdef
    have h3 : min scroll ms * m % U32 ≤ ms * m :=
      le_trans (Nat.mod_le _ _) (Nat.mul_le_mul_right m (min_le_right scroll ms))
    have h4 : min scroll ms * m % U32 / ms ≤ ms * m / ms := Nat.div_le_div_right h3
    have h5 : ms * m / ms = m := by
      rw [Nat.mul_comm, Nat.mul_div_cancel _ hmspos]
    have h6 : min scroll ms * m % U32 / ms ≤ m := by rwa [h5] at h4
    have h7 : min scroll ms * m % U32 / ms % U16 = min scroll ms * m % U32 / ms :=
      Nat.mod_eq_of_lt (lt_of_le_of_lt (le_trans h6 (Nat.sub_le _ _)) htr16)
    refine ⟨le_max_right _ 1, hth_le, ?_, trivial, by decide⟩
    rw [h7]
    omega

/-- C7 witness: the bounds at `track = 10`, `visible = 5`, `total = 20`,
`scroll = 5`. -/
theorem scrollbar_thumb_bounds_witness :
    1 ≤ (compute_thumb 10 5 20 5).1 ∧
    (compute_thumb 10 5 20 5).1 ≤ 10 ∧
    (compute_thumb 10 5 20 5).2.1 + (compute_thumb 10 5 20 5).1 ≤ 10 ∧
    (compute_thumb 10 5 20 5).2.2 = 20 - 5 ∧
    compute_thumb 10 5 20 5 = (2, 2, 15) :=
  scrollbar_thumb_bounds 10 5 20 5 (by decide) (by decide) (by decide) (by decide)
    (by decide) (by decide) (by decide)

/-! Facts about the scrollbar round trip. -/

theorem trackvis_lt_U32 (track vis : Nat) (htr16 : track < U16) (hv16 : vis < U16) :
    track * vis < U32 := by
  calc track * vis < U16 * U16 :=
        mul_lt_mul'' htr16 hv16 (Nat.zero_le _) (Nat.zero_le _)
    _ = U32 := by norm_num [U16, U32]

theorem trackvis_div_le (track vis total : Nat) (h0 : 0 < total) (hvt : vis ≤ total) :
    track * vis / total ≤ track := by
  have h1 : track * vis ≤ track * total := Nat.mul_le_mul_left track hvt
  have h2 : track * vis / total ≤ track * total / total := Nat.div_le_div_right h1
  rwa [Nat.mul_div_cancel _ h0] at h2

theorem thumb_h_eq (track vis total scroll : Nat) (h0 : 0 < total)
    (hvt : vis ≤ total) (htr : 1 ≤ track) (htr16 : track < U16) (hv16 : vis < U16) :
    (compute_thumb track vis total scroll).1 = max (track * vis / total) 1 := by
  have h0' : ¬ total = 0 := by omega
  have hle : max (track * vis / total) 1 ≤ track :=
    max_le (trackvis_div_le track vis total h0 hvt) htr
  simp only [compute_thumb, h0', if_false,
    Nat.mod_eq_of_lt (trackvis_lt_U32 track vis htr16 hv16)]
  exact Nat.mod_eq_of_lt (lt_of_le_of_lt hle htr16)

theorem thumb_h_le (track vis total scroll : Nat) (h0 : 0 < total)
    (hvt : vis ≤ total) (htr : 1 ≤ track) (htr16 : track < U16) (hv16 : vis < U16) :
    (compute_thumb track vis total scroll).1 ≤ track := by
  rw [thumb_h_eq track vis total scroll h0 hvt htr htr16 hv16]
  exact max_le (trackvis_div_le track vis total h0 hvt) htr

theorem compute_thumb_max_scroll (track vis total scroll : Nat) :
    (compute_thumb track vis total scroll).2.2 = total - vis := rfl

theorem thumb_top_eq (track vis total scroll : Nat) (h0 : 0 < total)
    (htr : 1 ≤ track) (htr16 : track < U16) (hv16 : vis < U16)
    (hvt : vis ≤ total) (hms : total - vis ≠ 0) (hnof : track * total < U32) :
    (compute_thumb track vis total scroll).2.1 =
      min scroll (total - vis) * (track - (compute_thumb track vis total scroll).1)
        / (total - vis) := by
  have h0' : ¬ total = 0 := by omega
  have hmspos : 0 < total - vis := Nat.pos_of_ne_zero hms
  have hth_eq := thumb_h_eq track vis total scroll h0 hvt htr htr16 hv16
  have hMle : max (track * vis / total) 1 ≤ track :=
    max_le (trackvis_div_le track vis total h0 hvt) htr
  have hM16 : max (track * vis / total) 1 % U16 = max (track * vis / total) 1 :=
    Nat.mod_eq_of_lt (lt_of_le_of_lt hMle htr16)
  have hprod : min scroll (total - vis) * (track - max (track * vis / total) 1) < U32 := by
    calc min scroll (total - vis) * (track - max (track * vis / total) 1)
        ≤ total * track :=
          Nat.mul_le_mul (le_trans (min_le_right _ _) (Nat.sub_le _ _)) (Nat.sub_le _ _)
      _ = track * total := Nat.mul_comm _ _
      _ < U32 := hnof
  have hbound : min scroll (total - vis) * (track - max (track * vis / total) 1)
      / (total - vis) ≤ track - max (track * vis / total) 1 := by
    have h1 : min scroll (total - vis) * (track - max (track * vis / total) 1)
        ≤ (total - vis) * (track - max (track * vis / total) 1) :=
      Nat.mul_le_mul_right _ (min_le_right _ _)
    have h2 : min scroll (total - vis) * (track - max (track * vis / total) 1) / (total - vis)
        ≤ (total - vis) * (track - max (track * vis / total) 1) / (total - vis) :=
      Nat.div_le_div_right h1
    rwa [Nat.mul_div_cancel_left _ hmspos] at h2
  rw [hth_eq]
  simp only [compute_thumb, h0', if_false, hms,
    Nat.mod_eq_of_lt (trackvis_lt_U32 track vis htr16 hv16), hM16]
  rw [Nat.mod_eq_of_lt hprod]
  exact Nat.mod_eq_of_lt
    (lt_of_le_of_lt (le_trans hbound (Nat.sub_le _ _)) htr16)

/-- C8 counterexample: at `track_h = 4`, `visible = 2`, `total = 12`,
`scroll = 4` (so `max_scroll = 10`, `thumb_h = 1`, `max_thumb_top = 3`) the
round trip gives `f 4 = 3` but `f (f 4) = f 3 = 0 ≠ 3`: the composition is
not idempotent. -/
theorem scroll_roundtrip_counterexample :
    scrollRoundTrip 4 2 12 4 = 3 ∧
    scrollRoundTrip 4 2 12 (scrollRoundTrip 4 2 12 4) = 0 ∧
    scrollRoundTrip 4 2 12 (scrollRoundTrip 4 2 12 4) ≠ scrollRoundTrip 4 2 12 4 := by
  decide

/-- C8 amended: under the claim's hypotheses (and no intermediate `u32`
overflow, `track * total < 2^32`), the scroll → thumb-top → scroll round
trip `f` never increases the scroll position, and loses at most
`max_scroll / max_thumb_top + 1` scroll units (the quantisation step of the
thumb); when `max_thumb_top = 0` it collapses to `0`.  Exact idempotence
`f (f s) = f s` does not hold (see the counterexample). -/
theorem scroll_roundtrip_bound (track vis total scroll : Nat)
    (htr : 1 ≤ track) (hv : 0 < vis) (hvt : vis ≤ total) (hs : scroll ≤ total - vis)
    (htr16 : track < U16) (hv16 : vis < U16) (hnof : track * total < U32) :
    scrollRoundTrip track vis total scroll ≤ scroll ∧
    (0 < track - (compute_thumb track vis total scroll).1 →
      scroll - scrollRoundTrip track vis total scroll ≤
        (total - vis) / (track - (compute_thumb track vis total scroll).1) + 1) ∧
    (track - (compute_thumb track vis total scroll).1 = 0 →
      scrollRoundTrip track vis total scroll = 0) := by
  have h0 : 0 < total := lt_of_lt_of_le hv hvt
  by_cases hms0 : total - vis = 0
  · have hf0 : scrollRoundTrip track vis total scroll = 0 := by
      unfold scrollRoundTrip map_thumb_to_scroll_u32
      rw [compute_thumb_max_scroll, if_pos (Or.inr hms0)]
    refine ⟨by omega, fun _ => ?_, fun _ => hf0⟩
    have h00 : scroll = 0 := by omega
    rw [hf0, h00]
    simp
  · have hth := thumb_h_le track vis total scroll h0 hvt htr htr16 hv16
    by_cases hmtt : track - (compute_thumb track vis total scroll).1 = 0
    · have hf0 : scrollRoundTrip track vis total scroll = 0 := by
        unfold scrollRoundTrip map_thumb_to_scroll_u32
        rw [if_pos (Or.inl hmtt)]
      exact ⟨by omega, fun hpos => absurd hpos (by omega), fun _ => hf0⟩
    · have httop := thumb_top_eq track vis total scroll h0 htr htr16 hv16 hvt hms0 hnof
      rw [min_eq_left hs] at httop
      set th := (compute_thumb track vis total scroll).1 with hthdef
      set ms := total - vis with hmsdef
      set mtt := track - th with hmttdef
      set t := scroll * mtt / ms with htdef
      have hp1 : t * ms < U32 := by
        have h1 : t ≤ mtt := by
          have ha : scroll * mtt ≤ ms * mtt := Nat.mul_le_mul_right mtt hs
          have hb : scroll * mtt / ms ≤ ms * mtt / ms := Nat.div_le_div_right ha
          rw [Nat.mul_div_cancel_left _ (by omega : 0 < ms)] at hb
          exact le_trans (le_of_eq htdef) hb
        calc t * ms ≤ mtt * ms := Nat.mul_le_mul_right ms h1
          _ ≤ track * total := Nat.mul_le_mul (Nat.sub_le _ _) (Nat.sub_le _ _)
          _ < U32 := hnof
      have hf : scrollRoundTrip track vis total scroll = t * ms / mtt := by
        unfold scrollRoundTrip map_thumb_to_scroll_u32
        rw [compute_thumb_max_scroll, ← hmsdef, httop, ← hthdef, ← hmttdef]
        rw [if_neg (by push_neg; exact ⟨hmtt, hms0⟩)]
        rw [Nat.mod_eq_of_lt hp1]
      set q := t * ms / mtt with hqdef
      have hq2 : q ≤ scroll := by
        have h1 : t * ms ≤ scroll * mtt := by
          have hd : scroll * mtt / ms * ms ≤ scroll * mtt :=
            Nat.div_mul_le_self (scroll * mtt) ms
          rwa [← htdef] at hd
        have h2 : t * ms / mtt ≤ scroll * mtt / mtt := Nat.div_le_div_right h1
        rwa [Nat.mul_div_cancel _ (by omega : 0 < mtt)] at h2
      refine ⟨by omega, fun _ => ?_, fun habs => absurd habs hmtt⟩
      rw [hf]
      set D := ms / mtt with hDdef
      have hdm1 := Nat.div_add_mod (scroll * mtt) ms
      have hdm2 := Nat.div_add_mod (t * ms) mtt
      have hdm3 := Nat.div_add_mod ms mtt
      have hr1 : (scroll * mtt) % ms < ms := Nat.mod_lt _ (by omega)
      have hr2 : (t * ms) % mtt < mtt := Nat.mod_lt _ (by omega)
      have hr3 : ms % mtt < mtt := Nat.mod_lt _ (by omega)
      rw [← htdef] at hdm1
      rw [← hqdef] at hdm2
      rw [← hDdef] at hdm3
      by_contra hcon
      push_neg at hcon
      have hkey : scroll * mtt < (q + D + 2) * mtt := by
        nlinarith [hdm1, hdm2, hdm3, hr1, hr2, hr3]
      have hlt : scroll < q + D + 2 :=
        lt_of_mul_lt_mul_right hkey (Nat.zero_le mtt)
      omega

/-- C8 amended witness: the bound at `track = 4`, `visible = 2`,
`total = 12`, `scroll = 4`. -/
theorem scroll_roundtrip_bound_witness :
    scrollRoundTrip 4 2 12 4 ≤ 4 ∧
    (0 < 4 - (compute_thumb 4 2 12 4).1 →
      4 - scrollRoundTrip 4 2 12 4 ≤ (12 - 2) / (4 - (compute_thumb 4 2 12 4).1) + 1) ∧
    (4 - (compute_thumb 4 2 12 4).1 = 0 → scrollRoundTrip 4 2 12 4 = 0) :=
  scroll_roundtrip_bound 4 2 12 4 (by decide) (by decide) (by decide) (by decide)
    (by decide) (by decide) (by decide)

end TerminalKit
